import Mathlib

/-!
Verification of the tweedjs documentation build script (src/build/index.js).

The script is a batch compiler: it reads a YAML table of contents, parses each
Markdown document into a leading key:value metadata block plus a body, converts
the body to HTML with a custom renderer that extracts dual-language code
fences, and writes per-document JSON files plus a manifest.

Strings are modelled as lists of characters (`Str`).  The external libraries
(the prism highlighting engine, the XML entity decoder, and the marked
Markdown lexer) are not part of the repository; they enter the model as the
fields of an `Ext` record, so every theorem about the repository code holds
for all behaviours of those libraries.  The code of the repository itself
(the metadata regex, the header fold, the renderer dispatch, the highlight
switch, the main loop) is embedded directly.
-/

namespace TweedDocs

abbrev Str := List Char

/-- ASCII model of the JS regex class backslash-s (whitespace). -/
def isSpaceChar (c : Char) : Bool :=
  c = ' ' || c = '\t' || c = '\n' || c = '\r' || c = '\x0b' || c = '\x0c'

/-- ASCII model of the JS regex class backslash-w (word characters). -/
def isWordChar (c : Char) : Bool :=
  ('a' ≤ c && c ≤ 'z') || ('A' ≤ c && c ≤ 'Z') || ('0' ≤ c && c ≤ '9') || c = '_'

/-- Length of the longest run of characters satisfying `p` at the head of `s`. -/
def runLen (p : Char → Bool) (s : Str) : Nat := (s.takeWhile p).length

def wordRun (s : Str) : Nat := runLen isWordChar s

def spaceRun (s : Str) : Nat := runLen isSpaceChar s

/-- Run length for the regex dot: any character other than a line
terminator.  The JS dot (without the s flag) excludes both the newline and
the carriage return; within ASCII these are the only line terminators. -/
def dotRun (s : Str) : Nat := runLen (fun c => !(c = '\n' || c = '\r')) s

/-- Boolean test that `p` is an initial segment of `s`. -/
def leadsWith : Str → Str → Bool
  | [], _ => true
  | _ :: _, [] => false
  | p :: ps, c :: cs => p = c && leadsWith ps cs

/-- JS pattern dot-plus-newline at the head of `s`: the greedy run of
non-line-terminator characters (at least one) followed by a literal
newline.  Returns the number of characters consumed. -/
def dotPlusNl (s : Str) : Option Nat :=
  if 0 < dotRun s && s.getD (dotRun s) ' ' = '\n' then some (dotRun s + 1) else none

/-- Backtracking of the greedy whitespace-star inside the metadata regex:
try consuming `k` whitespace characters, largest first, until the rest of
the pattern (dot-plus-newline) matches. -/
def wsTry (s : Str) : Nat → Option Nat
  | 0 => dotPlusNl s
  | k + 1 =>
    match dotPlusNl (s.drop (k + 1)) with
    | some m => some (k + 1 + m)
    | none => wsTry s k

/-- One iteration of the metadata regex (word-run, colon, whitespace-star,
dot-plus, newline) at the head of `s`, with JS backtracking semantics;
returns the number of characters consumed.  Note the whitespace-star may
cross line breaks, exactly as the JS class backslash-s does. -/
def metaIter (s : Str) : Option Nat :=
  if 0 < wordRun s ∧ leadsWith [':'] (s.drop (wordRun s)) then
    (wsTry (s.drop (wordRun s + 1)) (spaceRun (s.drop (wordRun s + 1)))).map
      (fun m => wordRun s + 1 + m)
  else none

/-- Kleene star of `metaIter`, fuelled (each iteration consumes at least one
character, so fuel equal to the length of the string suffices). -/
def metaStar : Nat → Str → Nat
  | 0, _ => 0
  | fuel + 1, s =>
    match metaIter s with
    | some m => m + metaStar fuel (s.drop m)
    | none => 0

/-- Length of the prefix of `contents` matched by the anchored metadata regex
of `parse` in src/build/index.js. -/
def metadataLen (s : Str) : Nat := metaStar s.length s

/-- Lines of a string, JS `split` on a newline (empty pieces kept). -/
def splitLines : Str → List Str
  | [] => [[]]
  | '\n' :: cs => [] :: splitLines cs
  | c :: cs =>
    match splitLines cs with
    | p :: ps => (c :: p) :: ps
    | [] => [[c]]

/-- JS `split` on the regex colon-whitespace-star: `goC s skip` splits `s`,
where `skip` records that we are inside the greedy whitespace tail of a
separator match. -/
def goC : Str → Bool → List Str
  | [], _ => [[]]
  | c :: cs, skip =>
    if skip && isSpaceChar c then goC cs true
    else if c = ':' then [] :: goC cs true
    else
      match goC cs false with
      | p :: ps => (c :: p) :: ps
      | [] => [[c]]

def jsSplitColon (s : Str) : List Str := goC s false

def sepTag : Str := ['-', '-', '-']

/-- Leftmost-anchored match of the separator regex (whitespace-star, three
dashes, whitespace-star) at the head of `s`: consumed length. -/
def sepMatchAt (s : Str) : Option Nat :=
  if leadsWith sepTag (s.drop (spaceRun s)) then
    some (spaceRun s + 3 + spaceRun (s.drop (spaceRun s + 3)))
  else none

/-- Fuelled scanner for JS `split` on the separator regex. -/
def sepSplitGo : Nat → Str → List Str
  | 0, s => [s]
  | fuel + 1, s =>
    match sepMatchAt s with
    | some m => [] :: sepSplitGo fuel (s.drop m)
    | none =>
      match s with
      | [] => [[]]
      | c :: cs =>
        match sepSplitGo fuel cs with
        | p :: ps => (c :: p) :: ps
        | [] => [[c]]

/-- JS `split` of a fence body on the separator regex, as performed by
`compileMarkdown` for dual-language fences. -/
def jsSplitSep (s : Str) : List Str := sepSplitGo s.length s

/-- JS `String.prototype.replace` with a plain string pattern: replaces the
first occurrence only, and returns the string unchanged when the pattern
does not occur. -/
def replaceFirstL (pat rep : Str) : Str → Str
  | [] => if leadsWith pat [] then rep else []
  | c :: cs =>
    if leadsWith pat (c :: cs) then rep ++ (c :: cs).drop pat.length
    else c :: replaceFirstL pat rep cs

/-- Substring test (JS regex `test` with a literal pattern). -/
def containsSub (pat : Str) : Str → Bool
  | [] => leadsWith pat []
  | c :: cs => leadsWith pat (c :: cs) || containsSub pat cs

/-- JS `String.prototype.trim`. -/
def trimJS (s : Str) : Str :=
  ((s.dropWhile isSpaceChar).reverse.dropWhile isSpaceChar).reverse

/-- The block-level events marked produces while rendering a document: fenced
code blocks and inline code spans are routed through the custom renderer of
`compileMarkdown`; all other Markdown content is rendered by marked itself
and reaches the output as plain HTML text. -/
inductive Token
  | codeBlock (body : Str) (lang : Option Str)
  | inlineCode (body : Str)
  | rawHtml (html : Str)
deriving DecidableEq

/-- The prism grammars the script loads or defines. -/
inductive PrismGrammar
  | tweed
  | bash
  | markup
deriving DecidableEq

/-- The external libraries used by the script, kept abstract: the prism
highlight engine, the XML entity decoder, and the marked lexer (mapping a
Markdown source to the stream of renderer events).  Theorems quantify over
this record, so they hold for every behaviour of the libraries. -/
structure Ext where
  prism : Str → PrismGrammar → Str
  decode : Str → Str
  tokenize : Str → List Token

def jsTag : Str := "javascript".toList

def tsTag : Str := "typescript".toList

def shellTag : Str := "shell".toList

def htmlTag : Str := "html".toList

def tweedTag : Str := "tweed".toList

def fiddleTag : Str := "tweed+fiddle".toList

/-- Interpolation of the language value into the thrown message (JS template
literals print undefined as the word undefined). -/
def langClass : Option Str → Str
  | some l => l
  | none => "undefined".toList

def cannotHighlightMsg (language : Option Str) : Str :=
  "Cannot highlight ".toList ++ langClass language

def shellPromptSpan : Str := "<span class=\"shell-prompt\"></span>".toList

/-- Per-line prompt replacement in the shell branch of `highlight`: a line
starting with a dollar sign has the dollar and the following whitespace
replaced by a span element. -/
def shellLine (line : Str) : Str :=
  match line with
  | '$' :: rest => shellPromptSpan ++ rest.dropWhile isSpaceChar
  | _ => line

def shellFormat (s : Str) : Str :=
  List.intercalate ['\n'] ((splitLines s).map shellLine)

/-- The `highlight` function of src/build/index.js; the thrown error is
modelled as the error branch of `Except` carrying the message. -/
def highlight (E : Ext) (code : Str) (language : Option Str) : Except Str Str :=
  if language = some jsTag ∨ language = some tsTag ∨ language = none then
    .ok (E.prism code PrismGrammar.tweed)
  else if language = some shellTag then
    .ok (shellFormat (E.prism code PrismGrammar.bash))
  else if language = some htmlTag then
    .ok (E.prism code PrismGrammar.markup)
  else
    .error (cannotHighlightMsg language)

/-- The `codeBlock` helper: pre/code wrapper with a lang- class around the
highlighted code. -/
def codeBlock (E : Ext) (code : Str) (language : Option Str) : Except Str Str :=
  match highlight E code language with
  | .error e => .error e
  | .ok h =>
    .ok ("<pre><code class=\"lang-".toList ++ langClass language ++
          ("\">".toList ++ (h ++ "</code></pre>".toList)))

/-- The `codeSpan` helper: entity-decodes the span text and highlights it with
the default (tweed) grammar, since `highlight` is called with one argument. -/
def codeSpan (E : Ext) (code : Str) : Except Str Str :=
  match highlight E (E.decode code) none with
  | .error e => .error e
  | .ok h => .ok ("<code>".toList ++ (h ++ "</code>".toList))

/-- An entry of the examples list: the two rendered variants and the fiddle
flag. -/
structure Example where
  javascript : Str
  typescript : Str
  fiddle : Bool
deriving DecidableEq

/-- The marker test of the renderer is the regex test for the substring
tweed; the JS call coerces an undefined language to the word undefined,
which does not contain the marker. -/
def hasTweed (lang : Option Str) : Bool :=
  match lang with
  | some l => containsSub tweedTag l
  | none => false

def hasFiddle (lang : Option Str) : Bool :=
  match lang with
  | some l => containsSub fiddleTag l
  | none => false

def exampleSlot : Str := "<example-slot></example-slot>".toList

/-- The JS evaluation of prism on an undefined argument throws a TypeError;
this is the message used to model it. -/
def typeErrMsg : Str := "TypeError: undefined is not a string".toList

/-- The dual-language branch of `renderer.code`: splits the fence body on the
separator regex, renders the first two parts, pushes the example and returns
the placeholder element.  When the split has a single part the second variant
is undefined and the highlighter throws. -/
def tweedExample (E : Ext) (code : Str) (lang : Option Str) :
    Except Str (Str × List Example) :=
  match (jsSplitSep code)[1]? with
  | none => .error typeErrMsg
  | some ts =>
    match codeBlock E ((jsSplitSep code).headD []) (some jsTag) with
    | .error e => .error e
    | .ok jsH =>
      match codeBlock E ts (some tsTag) with
      | .error e => .error e
      | .ok tsH => .ok (exampleSlot, [⟨jsH, tsH, hasFiddle lang⟩])

/-- Rendering of one marked event with the custom renderer of
`compileMarkdown`; the second component is the list of examples pushed. -/
def renderTok (E : Ext) : Token → Except Str (Str × List Example)
  | Token.codeBlock body lang =>
    if hasTweed lang then tweedExample E body lang
    else
      match codeBlock E body lang with
      | .error e => .error e
      | .ok h => .ok (h, [])
  | Token.inlineCode body =>
    match codeSpan E body with
    | .error e => .error e
    | .ok h => .ok (h, [])
  | Token.rawHtml h => .ok (h, [])

/-- marked running over the whole event stream: concatenated HTML plus the
examples pushed, in document order; the first thrown error aborts. -/
def renderAll (E : Ext) : List Token → Except Str (Str × List Example)
  | [] => .ok ([], [])
  | t :: ts =>
    match renderTok E t with
    | .error e => .error e
    | .ok (h, ex) =>
      match renderAll E ts with
      | .error e => .error e
      | .ok (hs, exs) => .ok (h ++ hs, ex ++ exs)

def anchorPat : Str := "<a href=\"http".toList

def anchorRep : Str := "<a target=\"_blank\" href=\"http".toList

structure DocOut where
  html : Str
  examples : List Example
deriving DecidableEq

/-- The `compileMarkdown` function: render the document, then rewrite the
first external anchor (a JS string replace, first occurrence only). -/
def compileMarkdown (E : Ext) (doc : List Token) : Except Str DocOut :=
  match renderAll E doc with
  | .error e => .error e
  | .ok (h, exs) => .ok ⟨replaceFirstL anchorPat anchorRep h, exs⟩

/-- One line of the metadata block turned into a binding of the headers
object: JS split on the colon-whitespace regex, destructured into key and
value (the value is undefined when the line has no separator), key
lowercased. -/
def headerBinding (l : Str) : Str × Option Str :=
  (((jsSplitColon l).headD []).map Char.toLower, (jsSplitColon l)[1]?)

def metaLines (metadata : Str) : List Str :=
  (splitLines metadata).filter (fun l => !l.isEmpty)

/-- The headers fold of `parse` (Object.assign over the split lines); kept as
the ordered list of bindings, later bindings shadowing earlier ones. -/
def headerPairs (metadata : Str) : List (Str × Option Str) :=
  (metaLines metadata).map headerBinding

/-- Lookup in the headers object: the last binding of a key wins. -/
def headerLookup (pairs : List (Str × Option Str)) (k : Str) : Option (Option Str) :=
  (pairs.reverse.find? (fun p => p.1 == k)).map (fun p => p.2)

structure ParseOut where
  headers : List (Str × Option Str)
  html : Str
  examples : List Example
deriving DecidableEq

/-- The `parse` function: strip the regex-matched metadata prefix, fold the
headers, compile the remaining Markdown. -/
def parse (E : Ext) (contents : Str) : Except Str ParseOut :=
  match compileMarkdown E (E.tokenize (contents.drop (metadataLen contents))) with
  | .error e => .error e
  | .ok d => .ok ⟨headerPairs (contents.take (metadataLen contents)), d.html, d.examples⟩

structure RootConfig where
  sections : List Str
deriving DecidableEq

structure SectionConfig where
  name : Str
  description : Str
  subsections : List Str
deriving DecidableEq

/-- The file system and YAML inputs of `main`, abstractly: the parsed root
index, the parsed per-section index, and the Markdown sources.  A missing
file or malformed YAML is the error branch carrying the thrown message. -/
structure SiteInput where
  root : Except Str RootConfig
  sectionConfig : Str → Except Str SectionConfig
  docFile : Str → Str → Except Str Str

structure DocJson where
  html : Str
  examples : List Example
deriving DecidableEq

structure SubEntry where
  headers : List (Str × Option Str)
  slug : Str
  url : Str
deriving DecidableEq

structure SectionEntry where
  name : Str
  slug : Str
  description : Str
  subsections : List SubEntry
deriving DecidableEq

structure Manifest where
  sections : List SectionEntry
deriving DecidableEq

/-- A file written by the build: a per-document JSON (exactly the html and
examples fields) or the manifest JSON. -/
inductive WriteEvent
  | doc (path : Str) (contents : DocJson)
  | manifest (m : Manifest)
deriving DecidableEq

/-- Path of the per-document output file relative to the dist directory. -/
def distPath (sec sub : Str) : Str :=
  sec ++ ('/' :: (sub ++ ".json".toList))

/-- The `url` helper rewriting the dist directory to the site prefix. -/
def urlOf (sec sub : Str) : Str := "/docs/".toList ++ distPath sec sub

/-- Body of the inner loop of `main` for one subsection: read the source,
parse it, emit the JSON write and the manifest entry. -/
def processSub (E : Ext) (inp : SiteInput) (sec sub : Str) :
    Except Str (WriteEvent × SubEntry) :=
  match inp.docFile sec sub with
  | .error e => .error e
  | .ok contents =>
    match parse E contents with
    | .error e => .error e
    | .ok pr =>
      .ok (WriteEvent.doc (distPath sec sub) ⟨pr.html, pr.examples⟩,
           ⟨pr.headers, sub, urlOf sec sub⟩)

def processSubs (E : Ext) (inp : SiteInput) (sec : Str) :
    List Str → Except Str (List WriteEvent × List SubEntry)
  | [] => .ok ([], [])
  | sub :: rest =>
    match processSub E inp sec sub with
    | .error e => .error e
    | .ok (w, en) =>
      match processSubs E inp sec rest with
      | .error e => .error e
      | .ok (ws, ens) => .ok (w :: ws, en :: ens)

def processSections (E : Ext) (inp : SiteInput) :
    List Str → Except Str (List WriteEvent × List SectionEntry)
  | [] => .ok ([], [])
  | sec :: rest =>
    match inp.sectionConfig sec with
    | .error e => .error e
    | .ok cfg =>
      match processSubs E inp sec cfg.subsections with
      | .error e => .error e
      | .ok (ws, subs) =>
        match processSections E inp rest with
        | .error e => .error e
        | .ok (ws2, secs) =>
          .ok (ws ++ ws2, ⟨cfg.name, sec, trimJS cfg.description, subs⟩ :: secs)

/-- The `main` function: sections in the order of the root index, subsections
in the order of each section index, one JSON write per subsection, the
manifest written last. -/
def mainModel (E : Ext) (inp : SiteInput) : Except Str (Manifest × List WriteEvent) :=
  match inp.root with
  | .error e => .error e
  | .ok rc =>
    match processSections E inp rc.sections with
    | .error e => .error e
    | .ok (ws, secs) => .ok (⟨secs⟩, ws ++ [WriteEvent.manifest ⟨secs⟩])

/-- The promise rejection handler installed on `main`: the stack (modelled by
the message) of any error is printed with console.error; nothing is rethrown
or rewrapped. -/
def topLevel (E : Ext) (inp : SiteInput) : List Str :=
  match mainModel E inp with
  | .ok _ => []
  | .error e => [e]

/-- A well-behaved metadata line: nonempty word key, a colon, and after the
colon the inline whitespace is followed by at least one non-whitespace
character; neither a newline nor a carriage return occurs inside the line
(the regex dot stops at either line terminator, so a line carrying a
carriage return fails the iteration).  For such lines the greedy whitespace
of the metadata regex cannot cross into the following line. -/
def goodMetaB (l : Str) : Bool :=
  decide (0 < wordRun l) &&
  leadsWith [':'] (l.drop (wordRun l)) &&
  decide (spaceRun (l.drop (wordRun l + 1)) < (l.drop (wordRun l + 1)).length) &&
  decide ('\n' ∉ l) &&
  decide ('\r' ∉ l)

/-- Newline-terminated concatenation of a list of lines. -/
def joinLines : List Str → Str
  | [] => []
  | l :: ls => l ++ '\n' :: joinLines ls

/-- Stated from the words of the spec, for comparison with the code: a line
matching the pattern key colon value (word key, colon, at least one further
character on the same line). -/
def specIsMetaLine (l : Str) : Bool :=
  decide (0 < wordRun l) && leadsWith [':'] (l.drop (wordRun l)) &&
  decide (wordRun l + 1 < l.length)

/-- Stated from the words of the spec, for comparison with the code: remove
exactly the maximal run of initial newline-terminated lines matching the
key colon value pattern. -/
def specStripGo : Nat → Str → Str
  | 0, s => s
  | fuel + 1, s =>
    if (s.takeWhile (fun c => !(c = '\n'))).length < s.length &&
        specIsMetaLine (s.takeWhile (fun c => !(c = '\n'))) then
      specStripGo fuel (s.drop ((s.takeWhile (fun c => !(c = '\n'))).length + 1))
    else s

def specStripMetadata (s : Str) : Str := specStripGo s.length s

/-- Concrete external functions for witnesses: the prism engine and entity
decoder are the identity, the lexer emits the source as one plain event. -/
def extC : Ext := ⟨fun c _ => c, fun s => s, fun s => [Token.rawHtml s]⟩

/-- Concrete site input used by witnesses: two sections in the root index,
with two and one subsections. -/
def inpC : SiteInput :=
  ⟨.ok ⟨["guide".toList, "api".toList]⟩,
   fun sec =>
     .ok ⟨"Guide".toList, " d ".toList,
          if sec = "guide".toList then ["a".toList, "b".toList] else ["c".toList]⟩,
   fun _ _ => .ok "t: v\nhello".toList⟩

/-- External functions whose lexer always produces a fence with an unknown
language; used to witness error propagation to the top level. -/
def extErr : Ext :=
  ⟨fun c _ => c, fun s => s, fun _ => [Token.codeBlock ['x'] (some "python".toList)]⟩

/-- The successful build outcome on the concrete input, for witnesses. -/
def buildWit : Manifest × List WriteEvent :=
  match mainModel extC inpC with
  | .ok p => p
  | .error _ => (⟨[]⟩, [])

theorem runLen_cons (p : Char → Bool) (c : Char) (cs : Str) :
    runLen p (c :: cs) = if p c then runLen p cs + 1 else 0 := by
  simp only [runLen, List.takeWhile_cons]
  by_cases h : p c <;> simp [h]

theorem runLen_append_lt (p : Char → Bool) :
    ∀ (a b : Str), runLen p a < a.length → runLen p (a ++ b) = runLen p a
  | [], _, h => absurd h (by simp [runLen])
  | c :: cs, b, h => by
    rw [List.cons_append, runLen_cons, runLen_cons]
    rw [runLen_cons] at h
    by_cases hc : p c
    · rw [if_pos hc] at h
      rw [if_pos hc, if_pos hc]
      have hlt : runLen p cs < cs.length := by
        simp only [List.length_cons] at h
        omega
      rw [runLen_append_lt p cs b hlt]
    · simp [hc]

theorem runLen_append_all (p : Char → Bool) :
    ∀ (a b : Str), (∀ c ∈ a, p c = true) → runLen p (a ++ b) = a.length + runLen p b
  | [], b, _ => by simp
  | c :: cs, b, h => by
    have hc : p c = true := h c (by simp)
    rw [List.cons_append, runLen_cons, if_pos hc,
        runLen_append_all p cs b (fun x hx => h x (by simp [hx]))]
    simp only [List.length_cons]
    omega

theorem getD_append_len (d : Char) :
    ∀ (a : Str) (c : Char) (t : Str), (a ++ c :: t).getD a.length d = c
  | [], _, _ => rfl
  | x :: xs, c, t => by
    simpa using getD_append_len d xs c t

theorem leadsWith_append_self : ∀ (p b : Str), leadsWith p (p ++ b) = true
  | [], _ => rfl
  | c :: cs, b => by simp [leadsWith, leadsWith_append_self cs b]

theorem wsTry_hit (S : Str) (k d : Nat) (h : dotPlusNl (S.drop k) = some d) :
    wsTry S k = some (k + d) := by
  cases k with
  | zero => simpa [wsTry] using h
  | succ j => simp [wsTry, h]

theorem metaIter_line (l t : Str) (hg : goodMetaB l = true) :
    metaIter (l ++ '\n' :: t) = some (l.length + 1) := by
  have hparts : (0 < wordRun l ∧ leadsWith [':'] (l.drop (wordRun l)) = true) ∧
      spaceRun (l.drop (wordRun l + 1)) < (l.drop (wordRun l + 1)).length ∧
      '\n' ∉ l ∧ '\r' ∉ l := by
    simpa [goodMetaB, Bool.and_eq_true, decide_eq_true_eq, and_assoc] using hg
  obtain ⟨⟨h1, h2⟩, h3, h4, h5⟩ := hparts
  have hwlt : wordRun l < l.length := by
    by_contra hle
    push_neg at hle
    rw [List.drop_eq_nil_of_le hle] at h2
    simp [leadsWith] at h2
  have hwr : wordRun (l ++ '\n' :: t) = wordRun l :=
    runLen_append_lt isWordChar l _ hwlt
  have hdrop2 : (l ++ '\n' :: t).drop (wordRun l) = l.drop (wordRun l) ++ '\n' :: t := by
    rw [List.drop_append_eq_append_drop, Nat.sub_eq_zero_of_le (Nat.le_of_lt hwlt),
        List.drop_zero]
  have hdrop3 : (l ++ '\n' :: t).drop (wordRun l + 1) = l.drop (wordRun l + 1) ++ '\n' :: t := by
    rw [List.drop_append_eq_append_drop, Nat.sub_eq_zero_of_le hwlt, List.drop_zero]
  have hlead : leadsWith [':'] ((l ++ '\n' :: t).drop (wordRun l)) = true := by
    rw [hdrop2]
    cases hd : l.drop (wordRun l) with
    | nil => rw [hd] at h2; simp [leadsWith] at h2
    | cons c r =>
      rw [hd] at h2
      simp only [leadsWith, List.cons_append] at h2 ⊢
      exact h2
  have hAnl : ∀ c ∈ l.drop (wordRun l + 1), (fun c => !(c = '\n' || c = '\r')) c = true := by
    intro c hc
    have hcl : c ∈ l := List.mem_of_mem_drop hc
    simp only [Bool.not_eq_true', Bool.or_eq_false_iff, decide_eq_false_iff_not]
    constructor
    · intro hcn
      rw [hcn] at hcl
      exact h4 hcl
    · intro hcr
      rw [hcr] at hcl
      exact h5 hcl
  have hsr : spaceRun (l.drop (wordRun l + 1) ++ '\n' :: t) = spaceRun (l.drop (wordRun l + 1)) :=
    runLen_append_lt isSpaceChar _ _ h3
  have hAd : (l.drop (wordRun l + 1) ++ '\n' :: t).drop (spaceRun (l.drop (wordRun l + 1)))
      = (l.drop (wordRun l + 1)).drop (spaceRun (l.drop (wordRun l + 1))) ++ '\n' :: t := by
    rw [List.drop_append_eq_append_drop, Nat.sub_eq_zero_of_le (Nat.le_of_lt h3),
        List.drop_zero]
  have hdr : dotRun ((l.drop (wordRun l + 1)).drop (spaceRun (l.drop (wordRun l + 1))) ++ '\n' :: t)
      = ((l.drop (wordRun l + 1)).drop (spaceRun (l.drop (wordRun l + 1)))).length := by
    rw [dotRun, runLen_append_all _ _ _
      (fun c hc => hAnl c (List.mem_of_mem_drop hc))]
    simp [runLen_cons]
  have hAlen0 : (l.drop (wordRun l + 1)).length = l.length - (wordRun l + 1) :=
    List.length_drop _ _
  have hpos : 0 < ((l.drop (wordRun l + 1)).drop (spaceRun (l.drop (wordRun l + 1)))).length := by
    rw [List.length_drop]
    omega
  have hdpn : dotPlusNl ((l.drop (wordRun l + 1)).drop (spaceRun (l.drop (wordRun l + 1))) ++ '\n' :: t)
      = some (((l.drop (wordRun l + 1)).drop (spaceRun (l.drop (wordRun l + 1)))).length + 1) := by
    unfold dotPlusNl
    rw [hdr, getD_append_len]
    split
    · rfl
    · rename_i hcond
      exfalso
      simp only [Bool.and_eq_true, decide_eq_true_eq, not_and] at hcond
      exact hcond hpos trivial
  have hws : wsTry (l.drop (wordRun l + 1) ++ '\n' :: t) (spaceRun (l.drop (wordRun l + 1)))
      = some (spaceRun (l.drop (wordRun l + 1)) +
          (((l.drop (wordRun l + 1)).drop (spaceRun (l.drop (wordRun l + 1)))).length + 1)) := by
    apply wsTry_hit
    rw [hAd]
    exact hdpn
  unfold metaIter
  rw [hwr, if_pos ⟨h1, hlead⟩, hdrop3, hsr, hws]
  have hAklen : ((l.drop (wordRun l + 1)).drop (spaceRun (l.drop (wordRun l + 1)))).length
      = (l.drop (wordRun l + 1)).length - spaceRun (l.drop (wordRun l + 1)) :=
    List.length_drop _ _
  have hAlen : (l.drop (wordRun l + 1)).length = l.length - (wordRun l + 1) :=
    List.length_drop _ _
  simp only [Option.map_some']
  congr 1
  omega

theorem metaStar_lines :
    ∀ (lines : List Str) (rest : Str) (fuel : Nat),
      (∀ l ∈ lines, goodMetaB l = true) → metaIter rest = none →
      (joinLines lines ++ rest).length ≤ fuel →
      metaStar fuel (joinLines lines ++ rest) = (joinLines lines).length
  | [], rest, fuel, _, hr, _ => by
    simp only [joinLines, List.nil_append, List.length_nil]
    cases fuel with
    | zero => rfl
    | succ f => simp [metaStar, hr]
  | l :: ls, rest, fuel, hg, hr, hf => by
    have hjoin : joinLines (l :: ls) ++ rest = l ++ '\n' :: (joinLines ls ++ rest) := by
      simp [joinLines]
    cases fuel with
    | zero =>
      exfalso
      rw [hjoin] at hf
      simp only [List.length_append, List.length_cons, Nat.le_zero] at hf
      omega
    | succ f =>
      rw [hjoin]
      have hstep : metaStar (f + 1) (l ++ '\n' :: (joinLines ls ++ rest))
          = (l.length + 1) +
            metaStar f ((l ++ '\n' :: (joinLines ls ++ rest)).drop (l.length + 1)) := by
        simp [metaStar, metaIter_line l (joinLines ls ++ rest) (hg l (by simp))]
      have hdropX : (l ++ '\n' :: (joinLines ls ++ rest)).drop (l.length + 1)
          = joinLines ls ++ rest := by
        rw [show l ++ '\n' :: (joinLines ls ++ rest)
              = (l ++ ['\n']) ++ (joinLines ls ++ rest) by simp]
        exact List.drop_left' (by simp)
      have hfls : (joinLines ls ++ rest).length ≤ f := by
        rw [hjoin] at hf
        simp only [List.length_append, List.length_cons] at hf ⊢
        omega
      rw [hstep, hdropX,
          metaStar_lines ls rest f (fun x hx => hg x (by simp [hx])) hr hfls]
      simp only [joinLines, List.length_append, List.length_cons]
      omega

/-- C2 (amended): `parse` removes exactly the prefix matched by the metadata
regex.  For documents whose leading newline-terminated metadata lines each
have, after the colon and the inline whitespace, at least one non-whitespace
character and contain no carriage return (and whose remainder does not begin
with a regex iteration), this prefix is exactly the run of metadata lines:
the lines are all removed, the remainder reaches the Markdown converter
unchanged, and no other line is removed.  The headers are folded from
exactly those lines. -/
theorem claim2_amended (E : Ext) (lines : List Str) (rest : Str)
    (hg : ∀ l ∈ lines, goodMetaB l = true) (hrest : metaIter rest = none) :
    metadataLen (joinLines lines ++ rest) = (joinLines lines).length ∧
    (joinLines lines ++ rest).drop (metadataLen (joinLines lines ++ rest)) = rest ∧
    parse E (joinLines lines ++ rest) =
      (compileMarkdown E (E.tokenize rest)).map
        (fun d => ⟨headerPairs (joinLines lines), d.html, d.examples⟩) := by
  have hm : metadataLen (joinLines lines ++ rest) = (joinLines lines).length :=
    metaStar_lines lines rest _ hg hrest (Nat.le_refl _)
  refine ⟨hm, ?_, ?_⟩
  · rw [hm]
    exact List.drop_left' rfl
  · unfold parse
    rw [hm, List.drop_left' rfl, List.take_left' rfl]
    cases hc : compileMarkdown E (E.tokenize rest) with
    | error e => simp [Except.map]
    | ok d => simp [Except.map]

/-- C2 witness: a concrete one-line metadata block followed by a heading. -/
theorem claim2_witness :
    metadataLen (joinLines ["title: Hello".toList] ++ "# Hi".toList)
      = (joinLines ["title: Hello".toList]).length ∧
    (joinLines ["title: Hello".toList] ++ "# Hi".toList).drop
      (metadataLen (joinLines ["title: Hello".toList] ++ "# Hi".toList)) = "# Hi".toList ∧
    parse extC (joinLines ["title: Hello".toList] ++ "# Hi".toList) =
      (compileMarkdown extC (extC.tokenize "# Hi".toList)).map
        (fun d => ⟨headerPairs (joinLines ["title: Hello".toList]), d.html, d.examples⟩) :=
  claim2_amended extC ["title: Hello".toList] ("# Hi".toList) (by decide) (by decide)

/-- C2 counterexample: on the document consisting of the lines
a-colon, empty, b, rest, the code removes the prefix up to and including the
line b (the greedy whitespace of the regex crosses the blank line), although
b is not a metadata line; the spec-stated behaviour (remove the maximal run
of key colon value lines) removes nothing, since the first line has no
value.  So the removed block is not the run of metadata lines and a
non-metadata line is removed. -/
theorem claim2_counterexample :
    ("a:\n\nb\nrest".toList).take (metadataLen ("a:\n\nb\nrest".toList)) = "a:\n\nb\n".toList ∧
    specStripMetadata ("a:\n\nb\nrest".toList) = "a:\n\nb\nrest".toList ∧
    ("a:\n\nb\nrest".toList).drop (metadataLen ("a:\n\nb\nrest".toList))
      ≠ specStripMetadata ("a:\n\nb\nrest".toList) :=
  ⟨rfl, rfl, by decide⟩

theorem goC_shape : ∀ (s : Str) (b : Bool), ∃ p ps, goC s b = p :: ps
  | [], _ => ⟨[], [], rfl⟩
  | c :: cs, b => by
    simp only [goC]
    by_cases h1 : b && isSpaceChar c
    · rw [if_pos h1]
      exact goC_shape cs true
    · rw [if_neg h1]
      by_cases h2 : c = ':'
      · rw [if_pos h2]
        exact ⟨[], goC cs true, rfl⟩
      · rw [if_neg h2]
        obtain ⟨p, ps, hp⟩ := goC_shape cs false
        rw [hp]
        exact ⟨c :: p, ps, rfl⟩

theorem goC_append_plain : ∀ (k s : Str), (∀ x ∈ k, x ≠ ':') →
    goC (k ++ s) false = (k ++ (goC s false).headD []) :: (goC s false).tail
  | [], s, _ => by
    obtain ⟨p, ps, hp⟩ := goC_shape s false
    simp [hp]
  | c :: k2, s, h => by
    have hc : c ≠ ':' := h c (by simp)
    have hrec := goC_append_plain k2 s (fun x hx => h x (by simp [hx]))
    simp only [List.cons_append, goC, List.append_eq]
    rw [if_neg (by simp), if_neg hc, hrec]

theorem goC_colon (s : Str) (b : Bool) : goC (':' :: s) b = [] :: goC s true := by
  cases b <;> rfl

theorem goC_skip : ∀ (ws s : Str), (∀ x ∈ ws, isSpaceChar x = true) →
    goC (ws ++ s) true = goC s true
  | [], _, _ => rfl
  | c :: ws2, s, h => by
    have hc : isSpaceChar c = true := h c (by simp)
    simp only [List.cons_append, goC]
    rw [if_pos (by simp [hc])]
    exact goC_skip ws2 s (fun x hx => h x (by simp [hx]))

theorem goC_value (c : Char) (v s : Str) (hc : isSpaceChar c = false) (hc2 : c ≠ ':')
    (hv : ∀ x ∈ v, x ≠ ':') :
    goC ((c :: v) ++ s) true = (c :: (v ++ (goC s false).headD [])) :: (goC s false).tail := by
  simp only [List.cons_append, goC, List.append_eq]
  rw [if_neg (by simp [hc]), if_neg hc2, goC_append_plain v s hv]

/-- C10: the headers fold of `parse` binds the lowercased key to exactly the
text between the first separator (a colon and its greedy, possibly empty,
whitespace) and the second separator: a value containing a further separator
is truncated there, since only the second piece of the JS split is kept. -/
theorem claim10_headerBinding (k ws v rest : Str) (c : Char)
    (hk : ∀ x ∈ k, x ≠ ':') (hws : ∀ x ∈ ws, isSpaceChar x = true)
    (hc : isSpaceChar c = false) (hc2 : c ≠ ':') (hv : ∀ x ∈ v, x ≠ ':') :
    headerBinding (k ++ ':' :: (ws ++ ((c :: v) ++ ':' :: rest)))
      = (k.map Char.toLower, some (c :: v)) := by
  have hsplit : jsSplitColon (k ++ ':' :: (ws ++ ((c :: v) ++ ':' :: rest)))
      = k :: (c :: v) :: goC rest true := by
    unfold jsSplitColon
    rw [goC_append_plain k _ hk, goC_colon, goC_skip ws _ hws,
        goC_value c v _ hc hc2 hv, goC_colon]
    simp
  unfold headerBinding
  rw [hsplit]
  simp

/-- C10 witness: the metadata line Title-colon foo-colon bar binds the
lowercased key title to the truncated value foo. -/
theorem claim10_witness :
    headerBinding ("Title: foo: bar".toList) = ("title".toList, some ("foo".toList)) := by
  have h := claim10_headerBinding ("Title".toList) [' '] ("oo".toList) (" bar".toList) 'f'
    (by decide) (by decide) (by decide) (by decide) (by decide)
  exact h

/-- C7: every error of the build is caught by the rejection handler on
`main` and surfaced by printing its stack to the console, unchanged; the
build terminates normally without rethrowing or rewrapping the error. -/
theorem claim7_topLevel (E : Ext) (inp : SiteInput) (e : Str)
    (h : mainModel E inp = .error e) : topLevel E inp = [e] := by
  unfold topLevel
  rw [h]

/-- C7 witness: an unknown fence language deep inside the first document
reaches the console untransformed. -/
theorem claim7_witness : topLevel extErr inpC = ["Cannot highlight python".toList] :=
  claim7_topLevel extErr inpC ("Cannot highlight python".toList) rfl

/-- C4 (amended): a fence language that does not contain the marker
substring tweed and is none of javascript, typescript, shell, html (and is
present) makes the compilation throw the message Cannot highlight followed
by the language. -/
theorem claim4_amended (E : Ext) (body lang : Str)
    (h1 : containsSub tweedTag lang = false)
    (h2 : lang ≠ jsTag) (h3 : lang ≠ tsTag) (h4 : lang ≠ shellTag) (h5 : lang ≠ htmlTag) :
    compileMarkdown E [Token.codeBlock body (some lang)]
      = .error (cannotHighlightMsg (some lang)) := by
  have hc1 : ¬(some lang = some jsTag ∨ some lang = some tsTag ∨
      (some lang : Option Str) = none) := by
    rintro (h | h | h)
    · exact h2 (Option.some.inj h)
    · exact h3 (Option.some.inj h)
    · exact Option.noConfusion h
  have hc2 : ¬((some lang : Option Str) = some shellTag) :=
    fun h => h4 (Option.some.inj h)
  have hc3 : ¬((some lang : Option Str) = some htmlTag) :=
    fun h => h5 (Option.some.inj h)
  have hh : highlight E body (some lang) = .error (cannotHighlightMsg (some lang)) := by
    unfold highlight
    rw [if_neg hc1, if_neg hc2, if_neg hc3]
  have hcb : codeBlock E body (some lang) = .error (cannotHighlightMsg (some lang)) := by
    unfold codeBlock
    rw [hh]
  have hT : hasTweed (some lang) = false := h1
  have htok : renderTok E (Token.codeBlock body (some lang))
      = .error (cannotHighlightMsg (some lang)) := by
    simp [renderTok, hT, hcb]
  simp [compileMarkdown, renderAll, htok]

/-- C4 witness: a python fence throws Cannot highlight python. -/
theorem claim4_witness :
    compileMarkdown extC [Token.codeBlock ("x".toList) (some ("python".toList))]
      = .error (cannotHighlightMsg (some ("python".toList))) :=
  claim4_amended extC ("x".toList) ("python".toList)
    (by decide) (by decide) (by decide) (by decide) (by decide)

/-- C4 counterexample: the fence language tweedy is outside the recognized
set of the claim (it is not the tweed marker and none of javascript,
typescript, shell, html, absent), yet compilation does not raise an error:
the renderer tests the marker as a substring, so the fence is treated as a
dual-language example. -/
theorem claim4_counterexample :
    compileMarkdown extC [Token.codeBlock ("a --- b".toList) (some ("tweedy".toList))]
      = .ok ⟨exampleSlot,
          [⟨"<pre><code class=\"lang-javascript\">a</code></pre>".toList,
            "<pre><code class=\"lang-typescript\">b</code></pre>".toList, false⟩]⟩ := rfl

/-- C8: every example produced for a marker fence carries the fiddle flag,
and the flag is exactly the regex test for the substring tweed+fiddle on
the fence language. -/
theorem claim8_fiddle (E : Ext) (body lang ts : Str)
    (h1 : containsSub tweedTag lang = true)
    (h2 : (jsSplitSep body)[1]? = some ts) :
    (compileMarkdown E [Token.codeBlock body (some lang)]).map
        (fun o => o.examples.map Example.fiddle)
      = .ok [containsSub fiddleTag lang] := by
  have hT : hasTweed (some lang) = true := h1
  have hj : ∀ code, highlight E code (some jsTag) = .ok (E.prism code PrismGrammar.tweed) := by
    intro code
    unfold highlight
    rw [if_pos (Or.inl rfl)]
  have ht : ∀ code, highlight E code (some tsTag) = .ok (E.prism code PrismGrammar.tweed) := by
    intro code
    unfold highlight
    rw [if_pos (Or.inr (Or.inl rfl))]
  simp [compileMarkdown, renderAll, renderTok, hT, tweedExample, h2, codeBlock, hj, ht,
    hasFiddle, Except.map]

/-- C8 witness: the flag is true for the tag tweed+fiddle and false for the
plain tweed tag. -/
theorem claim8_witness :
    (compileMarkdown extC [Token.codeBlock ("a --- b".toList)
        (some ("tweed+fiddle".toList))]).map (fun o => o.examples.map Example.fiddle)
      = .ok [true] ∧
    (compileMarkdown extC [Token.codeBlock ("a --- b".toList)
        (some ("tweed".toList))]).map (fun o => o.examples.map Example.fiddle)
      = .ok [false] :=
  ⟨claim8_fiddle extC ("a --- b".toList) ("tweed+fiddle".toList) ("b".toList)
      (by decide) rfl,
   claim8_fiddle extC ("a --- b".toList) ("tweed".toList) ("b".toList)
      (by decide) rfl⟩

theorem replaceFirst_split : ∀ (a pat rep b : Str), pat ≠ [] →
    (∀ i, i < a.length → leadsWith pat ((a ++ pat ++ b).drop i) = false) →
    replaceFirstL pat rep (a ++ pat ++ b) = a ++ rep ++ b
  | [], pat, rep, b, hne, _ => by
    cases pat with
    | nil => exact absurd rfl hne
    | cons p ps =>
      simp only [List.nil_append, List.cons_append, replaceFirstL, List.append_eq]
      rw [if_pos]
      · simp only [List.length_cons, List.drop_succ_cons]
        rw [List.drop_left]
      · have hlw := leadsWith_append_self (p :: ps) b
        simpa using hlw
  | x :: a2, pat, rep, b, hne, h => by
    have h0 : leadsWith pat (x :: (a2 ++ (pat ++ b))) = false := by
      have hx := h 0 (by simp)
      simpa using hx
    simp only [List.cons_append, replaceFirstL, List.append_eq]
    rw [if_neg (by simp [h0]), replaceFirst_split a2 pat rep b hne
      (fun i hi => by
        have hx := h (i + 1) (by simp only [List.length_cons]; omega)
        simpa [List.drop_succ_cons] using hx)]

/-- C9: only the first anchor whose href starts with http is rewritten to a
target-blank anchor; the rest of the rendered HTML, including every later
external anchor, is unchanged, because the string replace in
`compileMarkdown` applies to the first occurrence only. -/
theorem claim9_firstAnchor (E : Ext) (doc : List Token) (rendered : Str)
    (exs : List Example) (a b : Str)
    (h1 : renderAll E doc = .ok (rendered, exs))
    (h2 : rendered = a ++ anchorPat ++ b)
    (h3 : ∀ i, i < a.length → leadsWith anchorPat (rendered.drop i) = false) :
    compileMarkdown E doc = .ok ⟨a ++ anchorRep ++ b, exs⟩ := by
  have hcm : compileMarkdown E doc
      = .ok ⟨replaceFirstL anchorPat anchorRep rendered, exs⟩ := by
    unfold compileMarkdown
    rw [h1]
  rw [hcm, h2, replaceFirst_split a anchorPat anchorRep b (by decide) (h2 ▸ h3)]

/-- C9 witness: a rendered document with two external anchors, only the
first of which is rewritten. -/
theorem claim9_witness :
    compileMarkdown extC [Token.rawHtml
        ("<p><a href=\"http://x\">x</a><a href=\"http://y\">y</a></p>".toList)]
      = .ok ⟨("<p>".toList ++ anchorRep ++
            ("://x\">x</a><a href=\"http://y\">y</a></p>".toList)), []⟩ :=
  claim9_firstAnchor extC
    [Token.rawHtml ("<p><a href=\"http://x\">x</a><a href=\"http://y\">y</a></p>".toList)]
    ("<p><a href=\"http://x\">x</a><a href=\"http://y\">y</a></p>".toList) []
    ("<p>".toList) ("://x\">x</a><a href=\"http://y\">y</a></p>".toList)
    rfl (by decide) (by decide)

/-- C1 (amended): for a marker fence, `compileMarkdown` splits the body on
every separator and keeps the first two parts as the javascript and
typescript variants (a body with exactly one separator yields exactly its
two halves); each kept part is rendered as a highlighted code block pushed
on the examples list, and the HTML contains the placeholder element in place
of the fence, independently of the fence body. -/
theorem claim1_amended (E : Ext) (a body lang b ts : Str)
    (h1 : containsSub tweedTag lang = true)
    (h2 : (jsSplitSep body)[1]? = some ts) :
    compileMarkdown E [Token.rawHtml a, Token.codeBlock body (some lang), Token.rawHtml b]
      = .ok ⟨replaceFirstL anchorPat anchorRep (a ++ (exampleSlot ++ b)),
          [⟨"<pre><code class=\"lang-".toList ++ (jsTag ++ ("\">".toList ++
              (E.prism ((jsSplitSep body).headD []) PrismGrammar.tweed ++
                "</code></pre>".toList))),
            "<pre><code class=\"lang-".toList ++ (tsTag ++ ("\">".toList ++
              (E.prism ts PrismGrammar.tweed ++ "</code></pre>".toList))),
            containsSub fiddleTag lang⟩]⟩ := by
  have hT : hasTweed (some lang) = true := h1
  have hj : ∀ code, highlight E code (some jsTag) = .ok (E.prism code PrismGrammar.tweed) := by
    intro code
    unfold highlight
    rw [if_pos (Or.inl rfl)]
  have ht : ∀ code, highlight E code (some tsTag) = .ok (E.prism code PrismGrammar.tweed) := by
    intro code
    unfold highlight
    rw [if_pos (Or.inr (Or.inl rfl))]
  simp [compileMarkdown, renderAll, renderTok, hT, tweedExample, h2, codeBlock, hj, ht,
    hasFiddle, langClass]

/-- C1 witness: a dual-language fence with a single separator between two
pieces of code, surrounded by other content. -/
theorem claim1_witness :
    compileMarkdown extC [Token.rawHtml ("<h1>T</h1>".toList),
        Token.codeBlock ("let a = 1\n---\nlet a: number = 1".toList) (some ("tweed".toList)),
        Token.rawHtml ("<p>end</p>".toList)]
      = .ok ⟨"<h1>T</h1><example-slot></example-slot><p>end</p>".toList,
          [⟨"<pre><code class=\"lang-javascript\">let a = 1</code></pre>".toList,
            "<pre><code class=\"lang-typescript\">let a: number = 1</code></pre>".toList,
            false⟩]⟩ := by
  have h := claim1_amended extC ("<h1>T</h1>".toList)
    ("let a = 1\n---\nlet a: number = 1".toList) ("tweed".toList) ("<p>end</p>".toList)
    ("let a: number = 1".toList) (by decide) rfl
  exact h

/-- C1 counterexample: a marker fence whose body holds two separators is
split into three parts, not exactly two; the produced example keeps only the
first two parts and the third part is dropped from both variants. -/
theorem claim1_counterexample :
    (jsSplitSep ("a --- b --- c".toList)).length = 3 ∧
    compileMarkdown extC [Token.codeBlock ("a --- b --- c".toList) (some tweedTag)]
      = .ok ⟨exampleSlot,
          [⟨"<pre><code class=\"lang-javascript\">a</code></pre>".toList,
            "<pre><code class=\"lang-typescript\">b</code></pre>".toList, false⟩]⟩ :=
  ⟨rfl, rfl⟩

theorem renderTok_no_tweed_examples (E : Ext) (t : Token)
    (h : ∀ body l, t = Token.codeBlock body l → hasTweed l = false)
    (s : Str) (exs : List Example) (hr : renderTok E t = .ok (s, exs)) : exs = [] := by
  cases t with
  | codeBlock body l =>
    have hT : hasTweed l = false := h body l rfl
    simp only [renderTok, hT, Bool.false_eq_true, if_false] at hr
    cases hcb : codeBlock E body l with
    | error e => rw [hcb] at hr; simp at hr
    | ok h2 =>
      rw [hcb] at hr
      simp only [Except.ok.injEq, Prod.mk.injEq] at hr
      exact hr.2.symm
  | inlineCode body =>
    simp only [renderTok] at hr
    cases hcs : codeSpan E body with
    | error e => rw [hcs] at hr; simp at hr
    | ok h2 =>
      rw [hcs] at hr
      simp only [Except.ok.injEq, Prod.mk.injEq] at hr
      exact hr.2.symm
  | rawHtml html =>
    simp only [renderTok, Except.ok.injEq, Prod.mk.injEq] at hr
    exact hr.2.symm

theorem renderAll_no_tweed (E : Ext) :
    ∀ (doc : List Token), (∀ body l, Token.codeBlock body l ∈ doc → hasTweed l = false) →
      ∀ (s : Str) (exs : List Example), renderAll E doc = .ok (s, exs) → exs = []
  | [], _, s, exs, hr => by
    simp only [renderAll, Except.ok.injEq, Prod.mk.injEq] at hr
    exact hr.2.symm
  | t :: ts, h, s, exs, hr => by
    simp only [renderAll] at hr
    cases h1 : renderTok E t with
    | error e => rw [h1] at hr; simp at hr
    | ok p =>
      obtain ⟨s1, ex1⟩ := p
      rw [h1] at hr
      cases h2 : renderAll E ts with
      | error e => rw [h2] at hr; simp at hr
      | ok p2 =>
        obtain ⟨s2, exs2⟩ := p2
        rw [h2] at hr
        simp only [Except.ok.injEq, Prod.mk.injEq] at hr
        have hex1 : ex1 = [] :=
          renderTok_no_tweed_examples E t (fun body l hb => h body l (by simp [hb])) s1 ex1 h1
        have hex2 : exs2 = [] :=
          renderAll_no_tweed E ts (fun body l hb => h body l (by simp [hb])) s2 exs2 h2
        rw [← hr.2, hex1, hex2]
        rfl

/-- C5 (amended): a document with no fence whose language contains the
marker substring tweed compiles to an empty examples list (the renderer
selects the dual-language branch by a substring regex test). -/
theorem claim5_amended (E : Ext) (doc : List Token) (out : DocOut)
    (h : ∀ body l, Token.codeBlock body l ∈ doc → hasTweed l = false)
    (hc : compileMarkdown E doc = .ok out) : out.examples = [] := by
  unfold compileMarkdown at hc
  cases hr : renderAll E doc with
  | error e => rw [hr] at hc; simp at hc
  | ok p =>
    obtain ⟨s, exs⟩ := p
    rw [hr] at hc
    simp only [Except.ok.injEq] at hc
    have hex : exs = [] := renderAll_no_tweed E doc h s exs hr
    rw [← hc]
    simp [hex]

/-- C5 witness: a document with ordinary content, a javascript fence and a
code span has an empty examples list. -/
theorem claim5_witness :
    ∃ out, compileMarkdown extC [Token.rawHtml ("<p>hello</p>".toList),
        Token.codeBlock ("let x = 1".toList) (some ("javascript".toList)),
        Token.inlineCode ("y".toList)] = .ok out ∧ out.examples = [] := by
  have hno : ∀ body l, Token.codeBlock body l ∈
      [Token.rawHtml ("<p>hello</p>".toList),
        Token.codeBlock ("let x = 1".toList) (some ("javascript".toList)),
        Token.inlineCode ("y".toList)] → hasTweed l = false := by
    intro body l hm
    simp only [List.mem_cons, List.not_mem_nil, or_false] at hm
    rcases hm with hm | hm | hm
    · exact Token.noConfusion hm
    · injection hm with hb hl
      rw [hl]
      decide
    · exact Token.noConfusion hm
  exact ⟨_, rfl, claim5_amended extC _ _ hno rfl⟩

/-- C5 counterexample: the document whose only fence is tagged nottweed
contains no fence tagged with the tweed marker (the tag differs from both
tweed and tweed+fiddle), yet its examples list has length one, because the
marker test is a substring test. -/
theorem claim5_counterexample :
    (compileMarkdown extC [Token.codeBlock ("x --- y".toList)
        (some ("nottweed".toList))]).map (fun o => o.examples.length) = .ok 1 ∧
    ("nottweed".toList ≠ tweedTag) ∧ ("nottweed".toList ≠ fiddleTag) :=
  ⟨rfl, by decide, by decide⟩

theorem processSubs_spec (E : Ext) (inp : SiteInput) (sec : Str) :
    ∀ (subs : List Str) (ws : List WriteEvent) (es : List SubEntry),
      processSubs E inp sec subs = .ok (ws, es) →
      es.map SubEntry.slug = subs ∧ ws.length = es.length ∧
      (∀ en ∈ es, en.url = urlOf sec en.slug) ∧
      (∀ w ∈ ws, ∃ sub c pr, inp.docFile sec sub = .ok c ∧ parse E c = .ok pr ∧
        w = WriteEvent.doc (distPath sec sub) ⟨pr.html, pr.examples⟩)
  | [], ws, es, h => by
    simp only [processSubs, Except.ok.injEq, Prod.mk.injEq] at h
    obtain ⟨hw, he⟩ := h
    subst hw
    subst he
    simp
  | sub :: rest, ws, es, h => by
    simp only [processSubs] at h
    cases h1 : processSub E inp sec sub with
    | error e => rw [h1] at h; simp at h
    | ok p =>
      obtain ⟨w, en⟩ := p
      rw [h1] at h
      cases h2 : processSubs E inp sec rest with
      | error e => rw [h2] at h; simp at h
      | ok p2 =>
        obtain ⟨ws2, es2⟩ := p2
        rw [h2] at h
        simp only [Except.ok.injEq, Prod.mk.injEq] at h
        obtain ⟨hw, he⟩ := h
        subst hw
        subst he
        obtain ⟨ih1, ih2, ih3, ih4⟩ := processSubs_spec E inp sec rest ws2 es2 h2
        have hsub : en.slug = sub ∧ en.url = urlOf sec sub ∧
            ∃ c pr, inp.docFile sec sub = .ok c ∧ parse E c = .ok pr ∧
              w = WriteEvent.doc (distPath sec sub) ⟨pr.html, pr.examples⟩ := by
          simp only [processSub] at h1
          cases hd : inp.docFile sec sub with
          | error e => simp [hd] at h1
          | ok c =>
            simp only [hd] at h1
            cases hp : parse E c with
            | error e => simp [hp] at h1
            | ok pr =>
              simp only [hp, Except.ok.injEq, Prod.mk.injEq] at h1
              obtain ⟨hw1, he1⟩ := h1
              refine ⟨by rw [← he1], by rw [← he1], c, pr, rfl, hp, by rw [← hw1]⟩
        obtain ⟨hslug, hurl, c, pr, hd, hp, hw0⟩ := hsub
        refine ⟨by simp [hslug, ih1], by simp [ih2], ?_, ?_⟩
        · intro x hx
          rcases List.mem_cons.mp hx with hx | hx
          · rw [hx, hurl, hslug]
          · exact ih3 x hx
        · intro x hx
          rcases List.mem_cons.mp hx with hx | hx
          · exact ⟨sub, c, pr, hd, hp, by rw [hx, hw0]⟩
          · exact ih4 x hx

theorem processSections_spec (E : Ext) (inp : SiteInput) :
    ∀ (secs : List Str) (ws : List WriteEvent) (es : List SectionEntry),
      processSections E inp secs = .ok (ws, es) →
      es.map SectionEntry.slug = secs ∧
      (∀ en ∈ es, ∃ cfg, inp.sectionConfig en.slug = .ok cfg ∧
        en.name = cfg.name ∧ en.description = trimJS cfg.description ∧
        en.subsections.map SubEntry.slug = cfg.subsections ∧
        ∀ sb ∈ en.subsections, sb.url = urlOf en.slug sb.slug) ∧
      ws.length = (es.map (fun en => en.subsections.length)).sum ∧
      (∀ w ∈ ws, ∃ sec sub c pr, inp.docFile sec sub = .ok c ∧ parse E c = .ok pr ∧
        w = WriteEvent.doc (distPath sec sub) ⟨pr.html, pr.examples⟩)
  | [], ws, es, h => by
    simp only [processSections, Except.ok.injEq, Prod.mk.injEq] at h
    obtain ⟨hw, he⟩ := h
    subst hw
    subst he
    simp
  | sec :: rest, ws, es, h => by
    simp only [processSections] at h
    cases hc : inp.sectionConfig sec with
    | error e => simp [hc] at h
    | ok cfg =>
      simp only [hc] at h
      cases h1 : processSubs E inp sec cfg.subsections with
      | error e => simp [h1] at h
      | ok p =>
        obtain ⟨ws1, subs1⟩ := p
        simp only [h1] at h
        cases h2 : processSections E inp rest with
        | error e => simp [h2] at h
        | ok p2 =>
          obtain ⟨ws2, es2⟩ := p2
          simp only [h2, Except.ok.injEq, Prod.mk.injEq] at h
          obtain ⟨hw, he⟩ := h
          subst hw
          subst he
          obtain ⟨sh1, sh2, sh3, sh4⟩ := processSubs_spec E inp sec cfg.subsections ws1 subs1 h1
          obtain ⟨ih1, ih2, ih3, ih4⟩ := processSections_spec E inp rest ws2 es2 h2
          refine ⟨by simp [ih1], ?_, ?_, ?_⟩
          · intro en hen
            rcases List.mem_cons.mp hen with hen | hen
            · subst hen
              exact ⟨cfg, hc, rfl, rfl, sh1, fun sb hsb => sh3 sb hsb⟩
            · exact ih2 en hen
          · simp only [List.map_cons, List.sum_cons, List.length_append, ih3]
            have hlen : ws1.length = subs1.length := sh2
            simp [hlen]
          · intro w hw
            rcases List.mem_append.mp hw with hw | hw
            · obtain ⟨sub, c, pr, hd, hp, hx⟩ := sh4 w hw
              exact ⟨sec, sub, c, pr, hd, hp, hx⟩
            · exact ih4 w hw

/-- C3: the manifest lists the sections in exactly the order of the root
index file, and each section entry lists its subsections in exactly the
order of that section index file; no reordering is applied. -/
theorem claim3_order (E : Ext) (inp : SiteInput) (m : Manifest) (ws : List WriteEvent)
    (rc : RootConfig) (h : mainModel E inp = .ok (m, ws)) (hr : inp.root = .ok rc) :
    m.sections.map SectionEntry.slug = rc.sections ∧
    ∀ en ∈ m.sections, ∃ cfg, inp.sectionConfig en.slug = .ok cfg ∧
      en.subsections.map SubEntry.slug = cfg.subsections := by
  unfold mainModel at h
  simp only [hr] at h
  cases hp : processSections E inp rc.sections with
  | error e => simp [hp] at h
  | ok p =>
    obtain ⟨ws0, secs⟩ := p
    simp only [hp, Except.ok.injEq, Prod.mk.injEq] at h
    obtain ⟨hm, hws⟩ := h
    obtain ⟨h1, h2, h3, h4⟩ := processSections_spec E inp rc.sections ws0 secs hp
    subst hm
    refine ⟨h1, ?_⟩
    intro en hen
    obtain ⟨cfg, hcfg, _, _, hsubs, _⟩ := h2 en hen
    exact ⟨cfg, hcfg, hsubs⟩

/-- C3 witness: the concrete two-section input yields the manifest sections
guide then api, with subsections in the declared order. -/
theorem claim3_witness :
    buildWit.1.sections.map SectionEntry.slug = ["guide".toList, "api".toList] ∧
    ∀ en ∈ buildWit.1.sections, ∃ cfg, inpC.sectionConfig en.slug = .ok cfg ∧
      en.subsections.map SubEntry.slug = cfg.subsections :=
  claim3_order extC inpC buildWit.1 buildWit.2 ⟨["guide".toList, "api".toList]⟩ rfl rfl

/-- C6: a successful build writes one JSON file per subsection of every
section, holding exactly the html and examples fields of the parsed
document, and writes the manifest once, after all the document files; each
manifest subsection entry carries its headers, slug and url. -/
theorem claim6_writes (E : Ext) (inp : SiteInput) (m : Manifest) (ws : List WriteEvent)
    (h : mainModel E inp = .ok (m, ws)) :
    ∃ dws, ws = dws ++ [WriteEvent.manifest m] ∧
      dws.length = (m.sections.map (fun en => en.subsections.length)).sum ∧
      (∀ w ∈ dws, ∃ sec sub c pr, inp.docFile sec sub = .ok c ∧ parse E c = .ok pr ∧
        w = WriteEvent.doc (distPath sec sub) ⟨pr.html, pr.examples⟩) ∧
      ∀ en ∈ m.sections, ∀ sb ∈ en.subsections, sb.url = urlOf en.slug sb.slug := by
  unfold mainModel at h
  cases hroot : inp.root with
  | error e => simp [hroot] at h
  | ok rc =>
    simp only [hroot] at h
    cases hp : processSections E inp rc.sections with
    | error e => simp [hp] at h
    | ok p =>
      obtain ⟨ws0, secs⟩ := p
      simp only [hp, Except.ok.injEq, Prod.mk.injEq] at h
      obtain ⟨hm, hws⟩ := h
      obtain ⟨h1, h2, h3, h4⟩ := processSections_spec E inp rc.sections ws0 secs hp
      subst hm
      refine ⟨ws0, hws.symm, h3, h4, ?_⟩
      intro en hen sb hsb
      obtain ⟨cfg, _, _, _, _, hurl⟩ := h2 en hen
      exact hurl sb hsb

/-- C6 witness: on the concrete input the build writes three document files
and then the manifest, and every manifest entry has the computed url. -/
theorem claim6_witness :
    ∃ dws, buildWit.2 = dws ++ [WriteEvent.manifest buildWit.1] ∧
      dws.length = (buildWit.1.sections.map (fun en => en.subsections.length)).sum ∧
      (∀ w ∈ dws, ∃ sec sub c pr, inpC.docFile sec sub = .ok c ∧ parse extC c = .ok pr ∧
        w = WriteEvent.doc (distPath sec sub) ⟨pr.html, pr.examples⟩) ∧
      ∀ en ∈ buildWit.1.sections, ∀ sb ∈ en.subsections, sb.url = urlOf en.slug sb.slug :=
  claim6_writes extC inpC buildWit.1 buildWit.2 rfl

end TweedDocs
